import Mathlib

/-!
Verification of the incremental speech pipeline of the `tts_chat` package.

Strings are modelled as `List Char`.  The Python functions
`extract_speakable_segments` and `leading_overlap` from `tts_chat/utils.py`
are embedded below; the scanning `while` loop of the extractor is embedded
with an explicit fuel argument (each iteration strictly advances the scan
index, so `text.length + 1` units of fuel always suffice, which
`extractAux_fuel_congr` makes precise).
-/

namespace TtsChat

/-- Model of Python `str.isspace` on a single character, restricted to the
whitespace characters of the Latin-1 range (the characters the repository's
terminal client actually meets); wider Unicode space classes are outside the
model. -/
def pyIsSpace (c : Char) : Bool :=
  c = ' ' || c = '\t' || c = '\n' || c = '\x0b' || c = '\x0c' || c = '\r' ||
  c = '\x1c' || c = '\x1d' || c = '\x1e' || c = '\x1f' || c = '\x85' || c = '\xa0'

/-- Remove trailing whitespace, the second half of Python `str.strip()`. -/
def dropTrailing (l : List Char) : List Char :=
  (l.reverse.dropWhile pyIsSpace).reverse

/-- Model of Python `str.strip()`: drop leading and trailing whitespace. -/
def pyStrip (l : List Char) : List Char :=
  dropTrailing (l.dropWhile pyIsSpace)

/-- Model of the Python slice `s[a:b]` for `0 ≤ a`, `0 ≤ b`. -/
def pySlice (s : List Char) (a b : Nat) : List Char :=
  (s.drop a).take (b - a)

/-- The character of `text` at position `p` (a total lookup; positions past
the end give a placeholder that no lemma depends on). -/
def charAt (text : List Char) (p : Nat) : Char :=
  text.getD p ' '

/-- The sentence terminators of `extract_speakable_segments`:
`if char in '.!?'`. -/
def isTerminator (c : Char) : Bool :=
  c = '.' || c = '!' || c = '?'

/-- The characters absorbed after a terminator:
`text[end].isspace() or text[end] in '.:;!?)*"'`. -/
def isAbsorbable (c : Char) : Bool :=
  pyIsSpace c || c = '.' || c = ':' || c = ';' || c = '!' || c = '?' ||
  c = ')' || c = '*' || c = '"'

/-- The inner `while` loop of the terminator branch: starting at `e`, skip
every immediately following absorbable character. -/
def absorbEnd (text : List Char) (e : Nat) : Nat :=
  e + ((text.drop e).takeWhile isAbsorbable).length

/-- The scanning loop of `extract_speakable_segments` from `tts_chat/utils.py`.
State `(start, idx)` mirrors the Python locals `start_index` and `idx`; the
result pairs the emitted `(segment, new_cursor)` list with the final value of
`start_index`.  `fuel` bounds the number of loop iterations; every branch
strictly increases `idx`, so any fuel above `text.length - idx` gives the
loop's true result. -/
def extractAux (text : List Char) : Nat → Nat → Nat → List (List Char × Nat) × Nat
  | 0, start, _ => ([], start)
  | fuel + 1, start, idx =>
    if h : idx < text.length then
      let c := text.get ⟨idx, h⟩
      if isTerminator c then
        let e := absorbEnd text (idx + 1)
        let seg := pyStrip (pySlice text start e)
        let rest := extractAux text fuel e e
        if seg = [] then rest else ((seg, e) :: rest.1, rest.2)
      else if c = '\n' then
        let seg := pyStrip (pySlice text start idx)
        let rest := extractAux text fuel (idx + 1) (idx + 1)
        if seg = [] then rest else ((seg, idx + 1) :: rest.1, rest.2)
      else
        extractAux text fuel start (idx + 1)
    else ([], start)

/-- Run the scanning loop from state `(start, idx)` with sufficient fuel. -/
def extractFrom (text : List Char) (start idx : Nat) : List (List Char × Nat) × Nat :=
  extractAux text (text.length + 1) start idx

/-- Run `extract_speakable_segments(text, start)` together with the final value
of the internal scan position `start_index`. -/
def extractRun (text : List Char) (start : Nat) : List (List Char × Nat) × Nat :=
  extractFrom text start start

/-- The function `extract_speakable_segments(text, start)` from `tts_chat/utils.py`:
the list of `(segment, new_cursor)` pairs. -/
def extract_speakable_segments (text : List Char) (start : Nat) : List (List Char × Nat) :=
  (extractRun text start).1

/-- The descending search loop of `leading_overlap`:
`for size in range(max_overlap, 0, -1)`. -/
def overlapSearch (existing new_text : List Char) : Nat → Nat
  | 0 => 0
  | size + 1 =>
    if existing.drop (existing.length - (size + 1)) = new_text.take (size + 1) then
      size + 1
    else
      overlapSearch existing new_text size

/-- The function `leading_overlap(existing, new_text)` from `tts_chat/utils.py`: the
largest `k ≤ min` of the lengths such that the last `k` characters of
`existing` equal the first `k` characters of `new_text`, found by trying the
largest candidate first. -/
def leading_overlap (existing new_text : List Char) : Nat :=
  overlapSearch existing new_text (min existing.length new_text.length)

/-- The overlap relation that `leading_overlap` maximises: the last `k`
characters of `existing` coincide with the first `k` characters of
`new_text`. -/
def overlapMatches (existing new_text : List Char) (k : Nat) : Prop :=
  existing.drop (existing.length - k) = new_text.take k

/-- Convert a string literal to the `List Char` model. -/
def strL (s : String) : List Char :=
  s.data

example : strL "ab" = ['a', 'b'] := by decide

example : leading_overlap (strL "The cat sat") (strL "sat on the mat") = 3 := by decide

/-- The de-duplicating append of `ChatApp.stream_response` in
`tts_chat/app.py`: compute the overlap of the accumulated text with the
incoming chunk and append only `chunk[overlap:]`. -/
def appendDedup (buffer chunk : List Char) : List Char :=
  buffer ++ chunk.drop (leading_overlap buffer chunk)

/-- The cursor reached after applying every `new_cursor` of `segs` in turn,
starting from `c0` (the caller's `spoken_upto` update loop). -/
def lastCursor (c0 : Nat) : List (List Char × Nat) → Nat
  | [] => c0
  | (_, c) :: rest => lastCursor c rest

/-- The concatenation of the consumed source spans of `segs`: the span of a
segment runs from the previous segment's cursor (initially `c0`) to its own
cursor. -/
def spanConcat (text : List Char) (c0 : Nat) : List (List Char × Nat) → List Char
  | [] => []
  | (_, c) :: rest => pySlice text c0 c ++ spanConcat text c rest

/-- Every emitted segment is exactly the `strip` of its consumed span. -/
def stripOfSpans (text : List Char) : Nat → List (List Char × Nat) → Prop
  | _, [] => True
  | c0, (seg, c) :: rest => seg = pyStrip (pySlice text c0 c) ∧ stripOfSpans text c rest

/-- The `new_cursor` values are strictly increasing from `c0`. -/
def cursorsIncreasing : Nat → List (List Char × Nat) → Prop
  | _, [] => True
  | c0, (_, c) :: rest => c0 < c ∧ cursorsIncreasing c rest

/-- Invariant tying a result `(segs, fin)` of the scanning loop to the
cursor `c0` it was entered with: cursors increase strictly, each segment is
the strip of its nonempty consumed span, and the gap between the cursor
reached last and the final scan position `fin` is a run of whitespace ending
in a newline. -/
def cursorChain (text : List Char) : Nat → List (List Char × Nat) → Nat → Prop
  | c0, [], fin =>
      c0 ≤ fin ∧ fin ≤ text.length ∧
      (∀ p, c0 ≤ p → p < fin → pyIsSpace (charAt text p) = true) ∧
      (c0 < fin → charAt text (fin - 1) = '\n')
  | c0, (seg, c) :: rest, fin =>
      c0 < c ∧ seg = pyStrip (pySlice text c0 c) ∧ seg ≠ [] ∧ cursorChain text c rest fin

/-- A chunk is safe to append to already-scanned text when it is empty or
starts with a character that the terminator branch would not absorb. -/
def headNonAbsorbable (l : List Char) : Bool :=
  match l with
  | [] => true
  | c :: _ => !isAbsorbable c

/-- The incremental driver of `ChatApp.stream_response`, reduced to its
segmentation bookkeeping: each chunk of reply text is appended to the
cumulative buffer, the extractor is run on the cumulative text from the
cursor (`spoken_upto`) left by the previous round, and the cursor advances
to each returned `new_cursor`. -/
def feedIncremental (buffer : List Char) (cursor : Nat) :
    List (List Char) → List (List Char × Nat) × Nat
  | [] => ([], cursor)
  | chunk :: rest =>
    let segs := extract_speakable_segments (buffer ++ chunk) cursor
    let next := feedIncremental (buffer ++ chunk) (lastCursor cursor segs) rest
    (segs ++ next.1, next.2)

/-!
Model of `AudioPlayer` from `tts_chat/audio.py`.

The two queues, the single-slot first-error capture and the two worker loops
are embedded as a state machine.  `speak_text` and `_record_error` are pure
functions on the state, mirroring their Python bodies line by line; each
iteration of `_generator_loop` and `_playback_loop` is a constructor of the
`PlayerStep` relation (pulling a request, finishing a synthesis with some
outcome, pulling a buffer, finishing a playback with some outcome), and
`AudioPlayer.stop` is the flush-and-signal constructor.  Voice-and-speed
parameters `V`, errors `E` and audio buffers `B` are opaque type parameters,
and synthesis/playback outcomes are nondeterministic: a step exists for
every possible outcome, so theorems over all steps cover all latencies and
failure patterns.  Queue entries carry ghost sequence numbers (the order of
`speak_text` calls) so that ordering properties can be stated; the numbers
have no counterpart in the Python code.  `_generator_loop` holds at most one
request between pull and push (it is a single thread), which the model
renders as the one-slot `genBusy` register; likewise `playBusy` renders the
buffer `_playback_loop` is currently playing, so non-overlapping playback is
the guard `playBusy = none` on pulling the next buffer.
-/

/-- A speak request `(text, voice, speed)`; voice and speed are opaque. -/
structure SpeakRequest (V : Type) where
  text : List Char
  params : V

structure PlayerState (V E B : Type) where
  textQueue : List (Nat × SpeakRequest V)
  genBusy : Option (Nat × SpeakRequest V)
  playQueue : List (Nat × B)
  playBusy : Option (Nat × B)
  played : List (Nat × B)
  firstError : Option E
  stopFlag : Bool
  nextId : Nat

/-- State right after `AudioPlayer.__init__`: empty queues, no error. -/
def initialPlayer (V E B : Type) : PlayerState V E B :=
  ⟨[], none, [], none, [], none, false, 0⟩

/-- Model of `AudioPlayer._record_error`: store the exception only if no error has
been captured yet (first error wins). -/
def record_error {V E B : Type} (s : PlayerState V E B) (e : E) : PlayerState V E B :=
  match s.firstError with
  | some _ => s
  | none => { s with firstError := some e }

/-- Model of `AudioPlayer.speak_text`: `_raise_if_error` first, then drop text that is
empty after `strip()`, then enqueue on the text queue.  `_text_queue` is
created with no `maxsize`, so `put_nowait` cannot raise `queue.Full` and the
`except queue.Full` branch is dead code; the model therefore always
succeeds once the two checks pass. -/
def speak_text {V E B : Type} (s : PlayerState V E B) (req : SpeakRequest V) :
    Except E (PlayerState V E B) :=
  match s.firstError with
  | some e => Except.error e
  | none =>
    if pyStrip req.text = [] then Except.ok s
    else Except.ok { s with
      textQueue := s.textQueue ++ [(s.nextId, req)],
      nextId := s.nextId + 1 }

/-- Capacity of `_play_queue` (`queue.Queue(maxsize=4)`). -/
def playQueueCapacity : Nat := 4

/-- One atomic step of the audio pipeline: a successful `speak_text` call, a
worker-loop iteration with some synthesis or playback outcome, or `stop`. -/
inductive PlayerStep {V E B : Type} :
    PlayerState V E B → PlayerState V E B → Prop
  | speak (s s' : PlayerState V E B) (req : SpeakRequest V)
      (h : speak_text s req = Except.ok s') : PlayerStep s s'
  | genPull (s : PlayerState V E B) (item rest)
      (hstop : s.stopFlag = false) (hbusy : s.genBusy = none)
      (hq : s.textQueue = item :: rest) :
      PlayerStep s { s with textQueue := rest, genBusy := some item }
  | genSuccess (s : PlayerState V E B) (i : Nat) (req : SpeakRequest V) (b : B)
      (hbusy : s.genBusy = some (i, req))
      (hroom : s.playQueue.length < playQueueCapacity) :
      PlayerStep s { s with genBusy := none, playQueue := s.playQueue ++ [(i, b)] }
  | genEmpty (s : PlayerState V E B) (item) (hbusy : s.genBusy = some item) :
      PlayerStep s { s with genBusy := none }
  | genFail (s : PlayerState V E B) (item) (e : E) (hbusy : s.genBusy = some item) :
      PlayerStep s (record_error { s with genBusy := none } e)
  | playPull (s : PlayerState V E B) (item rest)
      (hstop : s.stopFlag = false) (hbusy : s.playBusy = none)
      (hq : s.playQueue = item :: rest) :
      PlayerStep s { s with playQueue := rest, playBusy := some item }
  | playDone (s : PlayerState V E B) (item) (hbusy : s.playBusy = some item) :
      PlayerStep s { s with playBusy := none, played := s.played ++ [item] }
  | playFail (s : PlayerState V E B) (item) (e : E) (hbusy : s.playBusy = some item) :
      PlayerStep s (record_error { s with playBusy := none } e)
  | stop (s : PlayerState V E B) :
      PlayerStep s { s with textQueue := [], playQueue := [], stopFlag := true }

inductive PlayerReachable {V E B : Type} : PlayerState V E B → Prop
  | init : PlayerReachable (initialPlayer V E B)
  | step (s s' : PlayerState V E B) :
      PlayerReachable s → PlayerStep s s' → PlayerReachable s'

/-- All ghost sequence numbers present in the pipeline, from closest to
playback back to the text queue. -/
def pipelineIds {V E B : Type} (s : PlayerState V E B) : List Nat :=
  s.played.map Prod.fst ++ s.playBusy.toList.map Prod.fst ++
    s.playQueue.map Prod.fst ++ s.genBusy.toList.map Prod.fst ++
    s.textQueue.map Prod.fst

/-!
Model of `stream_completions` from `tts_chat/completions.py`.

The network phase (`requests.post` plus `response.raise_for_status`) either
raises a `requests` exception or yields the body as a sequence of lines;
this is the `Option` argument `net` (`none` for a network failure).  The
line loop is embedded over the body lines, each paired with the value the
`stop_event` poll reads for that line.  JSON parsing is an opaque parameter
`parse`, with `none` for a `json.JSONDecodeError` — the only exception the
`try` around `json.loads` catches and converts to `ChatClientError`.  The
payload extraction `chunk.get('choices', [...])[0]` followed by
`choice.get('text')` / `choice.get('delta')...` runs outside that `try`, and
on well-formed JSON of an unexpected shape (an empty `choices` list, a
non-object chunk or choice) it raises an uncaught
`IndexError`/`AttributeError`/`TypeError` that aborts the response as a
third error kind, distinct from both `ChatClientError` and the `requests`
exceptions.  The extraction is the parameter
`textOf : J → Except Unit (List Char)`: `Except.error` is such an uncaught
exception, `Except.ok []` a missing or falsy (empty) text for which nothing
is yielded, and `Except.ok t` an extracted non-empty text.
-/

/-- The line marker `'data: '` checked with `startswith`. -/
def dataMarker : List Char := strL "data: "

/-- The terminal sentinel `'[DONE]'`. -/
def doneSentinel : List Char := strL "[DONE]"

/-- The result of one streaming request: the distinct error kinds of the
client (a `requests` exception, a `ChatClientError` carrying the offending
payload, an uncaught extraction exception) or the yielded text deltas. -/
inductive StreamResult where
  | requestError : StreamResult
  | clientError (payload : List Char) : StreamResult
  | uncaughtError : StreamResult
  | success (texts : List (List Char)) : StreamResult
deriving DecidableEq

/-- Whether a result is a `ChatClientError`. -/
def StreamResult.isClientError : StreamResult → Bool
  | StreamResult.clientError _ => true
  | _ => false

/-- The outcome of reading one response body. -/
inductive BodyResult where
  | ok (texts : List (List Char)) : BodyResult
  | clientError (payload : List Char) : BodyResult
  | uncaught : BodyResult
deriving DecidableEq

/-- The `for raw_line in response.iter_lines()` loop of
`stream_completions`: poll `stop_event`, skip non-data lines, stop at
`'[DONE]'`, turn malformed JSON into a `ChatClientError`, propagate an
uncaught extraction exception, and otherwise yield the extracted text when
it is non-empty. -/
def processLines {J : Type} (parse : List Char → Option J)
    (textOf : J → Except Unit (List Char)) :
    List (Bool × List Char) → BodyResult
  | [] => BodyResult.ok []
  | (stopSet, line) :: rest =>
    if stopSet then BodyResult.ok []
    else if line = [] ∨ line.take 6 ≠ dataMarker then processLines parse textOf rest
    else if pyStrip (line.drop 6) = doneSentinel then BodyResult.ok []
    else
      match parse (pyStrip (line.drop 6)) with
      | none => BodyResult.clientError (pyStrip (line.drop 6))
      | some j =>
        match textOf j with
        | Except.error _ => BodyResult.uncaught
        | Except.ok t =>
          if t = [] then processLines parse textOf rest
          else
            match processLines parse textOf rest with
            | BodyResult.ok ts => BodyResult.ok (t :: ts)
            | r => r

/-- Model of `stream_completions`: a network failure propagates as a
`requests` exception before any line is read; otherwise the body lines are
processed, a malformed data line surfaces as a `ChatClientError`, and an
unexpected payload shape as an uncaught exception. -/
def stream_completions {J : Type} (net : Option (List (Bool × List Char)))
    (parse : List Char → Option J) (textOf : J → Except Unit (List Char)) :
    StreamResult :=
  match net with
  | none => StreamResult.requestError
  | some lines =>
    match processLines parse textOf lines with
    | BodyResult.clientError payload => StreamResult.clientError payload
    | BodyResult.uncaught => StreamResult.uncaughtError
    | BodyResult.ok ts => StreamResult.success ts

/-- The condition as the claim words it: some data line among those before
cancellation or the terminal sentinel carries a payload `parse` rejects —
blind to extraction failures on earlier well-formed lines. -/
def hasMalformedDataLine {J : Type} (parse : List Char → Option J) :
    List (Bool × List Char) → Bool
  | [] => false
  | (stopSet, line) :: rest =>
    if stopSet then false
    else if line = [] ∨ line.take 6 ≠ dataMarker then hasMalformedDataLine parse rest
    else if pyStrip (line.drop 6) = doneSentinel then false
    else if (parse (pyStrip (line.drop 6))).isNone then true
    else hasMalformedDataLine parse rest

/-- The loop reaches a data line whose payload `parse` rejects without first
hitting a well-formed data line whose payload-shape extraction raises. -/
def scanHitsMalformed {J : Type} (parse : List Char → Option J)
    (textOf : J → Except Unit (List Char)) : List (Bool × List Char) → Bool
  | [] => false
  | (stopSet, line) :: rest =>
    if stopSet then false
    else if line = [] ∨ line.take 6 ≠ dataMarker then scanHitsMalformed parse textOf rest
    else if pyStrip (line.drop 6) = doneSentinel then false
    else
      match parse (pyStrip (line.drop 6)) with
      | none => true
      | some j =>
        match textOf j with
        | Except.error _ => false
        | Except.ok _ => scanHitsMalformed parse textOf rest

/-- JSON parsing restricted to the payloads of the C8 counterexample: an
object payload (starting with a brace) parses to itself, `notjson` does
not parse. -/
def parseEx (payload : List Char) : Option (List Char) :=
  if payload.take 1 = strL "\x7b" then some payload else none

/-- The extraction the counterexample's parsed payload meets: its `choices`
list is empty, so `chunk.get('choices', [...])[0]` raises `IndexError`. -/
def textOfEx (_ : List Char) : Except Unit (List Char) := Except.error ()

/-- The two-line body of the C8 counterexample: a well-formed data line with
an empty `choices` list, then a malformed data line. -/
def counterexampleBody : List (Bool × List Char) :=
  [(false, strL "data: \x7b\"choices\": []\x7d"), (false, strL "data: notjson")]

theorem charAt_eq_getElem (text : List Char) (p : Nat) (h : p < text.length) :
    charAt text p = text[p] := by
  unfold charAt
  exact List.getD_eq_getElem text ' ' h

theorem charAt_eq_get (text : List Char) (p : Nat) (h : p < text.length) :
    charAt text p = text.get ⟨p, h⟩ := by
  rw [charAt_eq_getElem text p h, List.get_eq_getElem]

theorem charAt_append_left (l1 l2 : List Char) (p : Nat) (h : p < l1.length) :
    charAt (l1 ++ l2) p = charAt l1 p := by
  have h2 : p < (l1 ++ l2).length := by
    rw [List.length_append]
    omega
  rw [charAt_eq_getElem _ _ h2, charAt_eq_getElem _ _ h]
  exact List.getElem_append_left h

theorem pySlice_nil_of_le (s : List Char) (a b : Nat) (h : b ≤ a) :
    pySlice s a b = [] := by
  simp [pySlice, Nat.sub_eq_zero_of_le h]

theorem pySlice_concat (s : List Char) (a b c : Nat) (h1 : a ≤ b) (h2 : b ≤ c) :
    pySlice s a b ++ pySlice s b c = pySlice s a c := by
  unfold pySlice
  have hb : s.drop b = (s.drop a).drop (b - a) := by
    rw [List.drop_drop]
    congr 1
    omega
  have hc : c - a = (b - a) + (c - b) := by omega
  rw [hb, hc, List.take_add]

theorem pySlice_drop (s : List Char) (a b : Nat) (h : a ≤ b) :
    pySlice s a b ++ s.drop b = s.drop a := by
  unfold pySlice
  have hb : s.drop b = (s.drop a).drop (b - a) := by
    rw [List.drop_drop]
    congr 1
    omega
  rw [hb, List.take_append_drop]

theorem pySlice_append_left (l1 l2 : List Char) (a b : Nat) (hb : b ≤ l1.length) :
    pySlice (l1 ++ l2) a b = pySlice l1 a b := by
  by_cases ha : a ≤ l1.length
  · unfold pySlice
    rw [List.drop_append_of_le_length ha]
    exact List.take_append_of_le_length (by rw [List.length_drop]; omega)
  · have hba : b - a = 0 := by omega
    simp [pySlice, hba]

theorem charAt_mem_pySlice (s : List Char) (a b p : Nat) (h1 : a ≤ p) (h2 : p < b)
    (h3 : p < s.length) :
    charAt s p ∈ pySlice s a b := by
  rw [charAt_eq_getElem _ _ h3]
  unfold pySlice
  rw [List.mem_iff_getElem]
  have hlen : p - a < ((s.drop a).take (b - a)).length := by
    rw [List.length_take, List.length_drop]
    omega
  refine ⟨p - a, hlen, ?_⟩
  simp only [List.getElem_take, List.getElem_drop]
  have hap : a + (p - a) = p := by omega
  simp [hap]

theorem mem_pySlice (s : List Char) (a b : Nat) (ch : Char) (h : ch ∈ pySlice s a b) :
    ∃ p, a ≤ p ∧ p < b ∧ p < s.length ∧ charAt s p = ch := by
  unfold pySlice at h
  rw [List.mem_iff_getElem] at h
  obtain ⟨i, hi, hget⟩ := h
  have hi2 : i < b - a ∧ i < s.length - a := by
    rw [List.length_take, List.length_drop] at hi
    omega
  refine ⟨a + i, by omega, by omega, by omega, ?_⟩
  rw [charAt_eq_getElem _ _ (by omega)]
  simp only [List.getElem_take, List.getElem_drop] at hget
  exact hget

theorem pyIsSpace_cases (c : Char) (h : pyIsSpace c = true) :
    c = ' ' ∨ c = '\t' ∨ c = '\n' ∨ c = '\x0b' ∨ c = '\x0c' ∨ c = '\r' ∨
    c = '\x1c' ∨ c = '\x1d' ∨ c = '\x1e' ∨ c = '\x1f' ∨ c = '\x85' ∨ c = '\xa0' := by
  simp [pyIsSpace] at h
  tauto

theorem ws_not_terminator (c : Char) (h : pyIsSpace c = true) : isTerminator c = false := by
  rcases pyIsSpace_cases c h with
    rfl | rfl | rfl | rfl | rfl | rfl | rfl | rfl | rfl | rfl | rfl | rfl <;> decide

theorem dropTrailing_append_ws (l u : List Char) (hu : ∀ ch ∈ u, pyIsSpace ch = true) :
    dropTrailing (l ++ u) = dropTrailing l := by
  unfold dropTrailing
  rw [List.reverse_append]
  rw [List.dropWhile_append_of_pos (fun a ha => hu a (List.mem_reverse.mp ha))]

theorem pyStrip_ws_append (u l : List Char) (hu : ∀ ch ∈ u, pyIsSpace ch = true) :
    pyStrip (u ++ l) = pyStrip l := by
  unfold pyStrip
  rw [List.dropWhile_append_of_pos hu]

theorem pyStrip_append_ws (l u : List Char) (hu : ∀ ch ∈ u, pyIsSpace ch = true) :
    pyStrip (l ++ u) = pyStrip l := by
  unfold pyStrip
  rw [List.dropWhile_append]
  split
  · next hemp =>
    rw [List.dropWhile_eq_nil_iff.mpr hu]
    rw [List.isEmpty_iff] at hemp
    rw [hemp]
  · exact dropTrailing_append_ws _ _ hu

theorem pyStrip_eq_nil_iff (l : List Char) :
    pyStrip l = [] ↔ ∀ ch ∈ l, pyIsSpace ch = true := by
  constructor
  · intro h ch hch
    unfold pyStrip dropTrailing at h
    rw [List.reverse_eq_nil_iff, List.dropWhile_eq_nil_iff] at h
    have hl : l = l.takeWhile pyIsSpace ++ l.dropWhile pyIsSpace :=
      (List.takeWhile_append_dropWhile _ _).symm
    rcases List.mem_append.mp (hl ▸ hch) with h1 | h2
    · exact List.mem_takeWhile_imp h1
    · exact h ch (List.mem_reverse.mpr h2)
  · intro h
    have h2 := pyStrip_ws_append l [] h
    rw [List.append_nil] at h2
    rw [h2]
    rfl

theorem pySlice_ws_of_range (s : List Char) (a b : Nat)
    (h : ∀ p, a ≤ p → p < b → pyIsSpace (charAt s p) = true) :
    ∀ ch ∈ pySlice s a b, pyIsSpace ch = true := by
  intro ch hch
  obtain ⟨p, h1, h2, _, h4⟩ := mem_pySlice s a b ch hch
  rw [← h4]
  exact h p h1 h2

theorem range_ws_of_pyStrip_nil (s : List Char) (a b : Nat)
    (h : pyStrip (pySlice s a b) = []) :
    ∀ p, a ≤ p → p < b → p < s.length → pyIsSpace (charAt s p) = true := by
  intro p h1 h2 h3
  exact (pyStrip_eq_nil_iff _).mp h _ (charAt_mem_pySlice s a b p h1 h2 h3)

theorem absorbEnd_ge (text : List Char) (e : Nat) : e ≤ absorbEnd text e :=
  Nat.le_add_right _ _

theorem absorbEnd_le_length (text : List Char) (e : Nat) (h : e ≤ text.length) :
    absorbEnd text e ≤ text.length := by
  unfold absorbEnd
  have h2 := (List.takeWhile_sublist (l := text.drop e) isAbsorbable).length_le
  rw [List.length_drop] at h2
  omega

theorem extractAux_stop (text : List Char) (n start idx : Nat) (h : ¬ idx < text.length) :
    extractAux text (n + 1) start idx = ([], start) := by
  simp only [extractAux]
  rw [dif_neg h]

theorem extractAux_term (text : List Char) (n start idx : Nat) (h : idx < text.length)
    (hterm : isTerminator text[idx] = true) :
    extractAux text (n + 1) start idx =
      if pyStrip (pySlice text start (absorbEnd text (idx + 1))) = [] then
        extractAux text n (absorbEnd text (idx + 1)) (absorbEnd text (idx + 1))
      else
        ((pyStrip (pySlice text start (absorbEnd text (idx + 1))), absorbEnd text (idx + 1)) ::
            (extractAux text n (absorbEnd text (idx + 1)) (absorbEnd text (idx + 1))).1,
          (extractAux text n (absorbEnd text (idx + 1)) (absorbEnd text (idx + 1))).2) := by
  simp only [extractAux]
  rw [dif_pos h]
  simp only [List.get_eq_getElem]
  rw [if_pos hterm]

theorem extractAux_newline (text : List Char) (n start idx : Nat) (h : idx < text.length)
    (hterm : isTerminator text[idx] = false) (hnl : text[idx] = '\n') :
    extractAux text (n + 1) start idx =
      if pyStrip (pySlice text start idx) = [] then
        extractAux text n (idx + 1) (idx + 1)
      else
        ((pyStrip (pySlice text start idx), idx + 1) ::
            (extractAux text n (idx + 1) (idx + 1)).1,
          (extractAux text n (idx + 1) (idx + 1)).2) := by
  simp only [extractAux]
  rw [dif_pos h]
  simp only [List.get_eq_getElem]
  rw [if_neg (by simp [hterm]), if_pos hnl]

theorem extractAux_plain (text : List Char) (n start idx : Nat) (h : idx < text.length)
    (hterm : isTerminator text[idx] = false) (hnl : ¬ text[idx] = '\n') :
    extractAux text (n + 1) start idx = extractAux text n start (idx + 1) := by
  simp only [extractAux]
  rw [dif_pos h]
  simp only [List.get_eq_getElem]
  rw [if_neg (by simp [hterm]), if_neg hnl]

theorem cursorChain_le (text : List Char) :
    ∀ segs c0 fin, cursorChain text c0 segs fin → c0 ≤ fin := by
  intro segs
  induction segs with
  | nil => exact fun c0 fin h => h.1
  | cons sc rest ih =>
    intro c0 fin h
    obtain ⟨seg, c⟩ := sc
    exact Nat.le_trans (Nat.le_of_lt h.1) (ih c fin h.2.2.2)

theorem cursorChain_tail (text : List Char) :
    ∀ segs c0 fin, cursorChain text c0 segs fin →
      lastCursor c0 segs ≤ fin ∧ fin ≤ text.length ∧
      (∀ p, lastCursor c0 segs ≤ p → p < fin → pyIsSpace (charAt text p) = true) ∧
      (lastCursor c0 segs < fin → charAt text (fin - 1) = '\n') := by
  intro segs
  induction segs with
  | nil => exact fun c0 fin h => ⟨h.1, h.2.1, h.2.2.1, h.2.2.2⟩
  | cons sc rest ih =>
    intro c0 fin h
    obtain ⟨seg, c⟩ := sc
    exact ih c fin h.2.2.2

theorem cursorChain_weaken (text : List Char) :
    ∀ segs c0 c1 fin, cursorChain text c1 segs fin → c0 ≤ c1 →
      (∀ p, c0 ≤ p → p < c1 → pyIsSpace (charAt text p) = true) →
      (c0 < c1 → charAt text (c1 - 1) = '\n') →
      cursorChain text c0 segs fin := by
  intro segs
  cases segs with
  | nil =>
    intro c0 c1 fin h hle hws hnl
    refine ⟨Nat.le_trans hle h.1, h.2.1, ?_, ?_⟩
    · intro p hp1 hp2
      by_cases hpc : p < c1
      · exact hws p hp1 hpc
      · exact h.2.2.1 p (by omega) hp2
    · intro hlt
      by_cases hc : c1 < fin
      · exact h.2.2.2 hc
      · have hcf : c1 = fin := by
          have := h.1
          omega
        rw [← hcf]
        exact hnl (by omega)
  | cons sc rest =>
    intro c0 c1 fin h hle hws hnl
    obtain ⟨seg, c⟩ := sc
    obtain ⟨h1, h2, h3, h4⟩ := h
    refine ⟨by omega, ?_, h3, h4⟩
    rw [h2, ← pySlice_concat text c0 c1 c hle (Nat.le_of_lt h1),
      pyStrip_ws_append _ _ (pySlice_ws_of_range text c0 c1 hws)]

/-- Master invariant of the scanning loop: any run entered at `(start, idx)`
with `start ≤ idx ≤ text.length` and sufficient fuel produces a result
satisfying `cursorChain`, and leaves no unprocessed boundary character
between its final scan position and the end of the text. -/
theorem extractAux_spec (text : List Char) :
    ∀ fuel start idx, text.length - idx < fuel → start ≤ idx → idx ≤ text.length →
      cursorChain text start (extractAux text fuel start idx).1
        (extractAux text fuel start idx).2 ∧
      (∀ p, (extractAux text fuel start idx).2 ≤ p → idx ≤ p → p < text.length →
        isTerminator (charAt text p) = false ∧ charAt text p ≠ '\n') := by
  intro fuel
  induction fuel with
  | zero =>
    intro start idx h1 _ _
    omega
  | succ n ih =>
    intro start idx hfuel hsi hil
    by_cases hlt : idx < text.length
    case neg =>
      rw [extractAux_stop text n start idx hlt]
      have hie : idx = text.length := by omega
      refine ⟨⟨Nat.le_refl _, by omega, ?_, ?_⟩, ?_⟩
      · intro p hp1 hp2
        exact absurd hp2 (by omega)
      · intro hcon
        exact absurd hcon (by omega)
      · intro p hp1 hp2 hp3
        exact absurd hp3 (by omega)
    case pos =>
      have hcg : charAt text idx = text[idx] := charAt_eq_getElem text idx hlt
      cases hterm : isTerminator text[idx] with
      | true =>
        rw [extractAux_term text n start idx hlt hterm]
        have he1 : idx + 1 ≤ absorbEnd text (idx + 1) := absorbEnd_ge text (idx + 1)
        have he2 : absorbEnd text (idx + 1) ≤ text.length :=
          absorbEnd_le_length text (idx + 1) (by omega)
        have hrec := ih (absorbEnd text (idx + 1)) (absorbEnd text (idx + 1))
          (by omega) (Nat.le_refl _) he2
        by_cases hseg : pyStrip (pySlice text start (absorbEnd text (idx + 1))) = []
        · exfalso
          have hws := range_ws_of_pyStrip_nil text start (absorbEnd text (idx + 1)) hseg
            idx hsi (by omega) hlt
          rw [hcg] at hws
          have hnt := ws_not_terminator _ hws
          simp [hnt] at hterm
        · rw [if_neg hseg]
          refine ⟨⟨by omega, rfl, hseg, hrec.1⟩, ?_⟩
          intro p hp1 hp2 hp3
          have hef : absorbEnd text (idx + 1) ≤
              (extractAux text n (absorbEnd text (idx + 1)) (absorbEnd text (idx + 1))).2 :=
            cursorChain_le text _ _ _ hrec.1
          exact hrec.2 p hp1 (by omega) hp3
      | false =>
        by_cases hnl : text[idx] = '\n'
        · rw [extractAux_newline text n start idx hlt hterm hnl]
          have hrec := ih (idx + 1) (idx + 1) (by omega) (Nat.le_refl _) (by omega)
          have hwsnl : pyIsSpace (charAt text idx) = true := by
            rw [hcg, hnl]
            decide
          by_cases hseg : pyStrip (pySlice text start idx) = []
          · rw [if_pos hseg]
            refine ⟨?_, ?_⟩
            · refine cursorChain_weaken text _ start (idx + 1) _ hrec.1 (by omega) ?_ ?_
              · intro p hp1 hp2
                by_cases hpi : p < idx
                · exact range_ws_of_pyStrip_nil text start idx hseg p hp1 hpi (by omega)
                · have hpe : p = idx := by omega
                  rw [hpe]
                  exact hwsnl
              · intro _
                have h11 : idx + 1 - 1 = idx := by omega
                rw [h11, hcg]
                exact hnl
            · intro p hp1 hp2 hp3
              have hef : idx + 1 ≤ (extractAux text n (idx + 1) (idx + 1)).2 :=
                cursorChain_le text _ _ _ hrec.1
              exact hrec.2 p hp1 (by omega) hp3
          · rw [if_neg hseg]
            refine ⟨⟨by omega, ?_, hseg, hrec.1⟩, ?_⟩
            · rw [← pySlice_concat text start idx (idx + 1) hsi (by omega),
                pyStrip_append_ws]
              intro ch hch
              obtain ⟨p, hp1, hp2, _, hp4⟩ := mem_pySlice text idx (idx + 1) ch hch
              have hpe : p = idx := by omega
              rw [← hp4, hpe]
              exact hwsnl
            · intro p hp1 hp2 hp3
              have hef : idx + 1 ≤ (extractAux text n (idx + 1) (idx + 1)).2 :=
                cursorChain_le text _ _ _ hrec.1
              exact hrec.2 p hp1 (by omega) hp3
        · rw [extractAux_plain text n start idx hlt hterm hnl]
          have hrec := ih start (idx + 1) (by omega) (by omega) (by omega)
          refine ⟨hrec.1, ?_⟩
          intro p hp1 hp2 hp3
          by_cases hpi : idx + 1 ≤ p
          · exact hrec.2 p hp1 hpi hp3
          · have hpe : p = idx := by omega
            rw [hpe, hcg]
            exact ⟨hterm, hnl⟩

theorem extractRun_spec (text : List Char) (start : Nat) (h : start ≤ text.length) :
    cursorChain text start (extractRun text start).1 (extractRun text start).2 ∧
    (∀ p, (extractRun text start).2 ≤ p → start ≤ p → p < text.length →
      isTerminator (charAt text p) = false ∧ charAt text p ≠ '\n') := by
  unfold extractRun extractFrom
  exact extractAux_spec text (text.length + 1) start start (by omega) (Nat.le_refl _) h

theorem extractRun_of_gt (text : List Char) (start : Nat) (h : text.length < start) :
    extractRun text start = ([], start) := by
  unfold extractRun extractFrom
  exact extractAux_stop text text.length start start (by omega)

theorem cursorChain_stripOfSpans (text : List Char) :
    ∀ segs c0 fin, cursorChain text c0 segs fin → stripOfSpans text c0 segs := by
  intro segs
  induction segs with
  | nil => exact fun c0 fin _ => trivial
  | cons sc rest ih =>
    intro c0 fin h
    obtain ⟨seg, c⟩ := sc
    exact ⟨h.2.1, ih c fin h.2.2.2⟩

theorem cursorChain_increasing (text : List Char) :
    ∀ segs c0 fin, cursorChain text c0 segs fin → cursorsIncreasing c0 segs := by
  intro segs
  induction segs with
  | nil => exact fun c0 fin _ => trivial
  | cons sc rest ih =>
    intro c0 fin h
    obtain ⟨seg, c⟩ := sc
    exact ⟨h.1, ih c fin h.2.2.2⟩

theorem cursorChain_mem_bounds (text : List Char) :
    ∀ segs c0 fin, cursorChain text c0 segs fin →
      ∀ sc ∈ segs, c0 < sc.2 ∧ sc.2 ≤ fin := by
  intro segs
  induction segs with
  | nil =>
    intro c0 fin _ sc hsc
    exact absurd hsc (List.not_mem_nil sc)
  | cons hd rest ih =>
    intro c0 fin h sc hsc
    obtain ⟨seg, c⟩ := hd
    obtain ⟨h1, _, _, h4⟩ := h
    rcases List.mem_cons.mp hsc with rfl | hmem
    · exact ⟨h1, cursorChain_le text rest c fin h4⟩
    · have := ih c fin h4 sc hmem
      exact ⟨by omega, this.2⟩

theorem cursorChain_lastCursor_ge (text : List Char) :
    ∀ segs c0 fin, cursorChain text c0 segs fin → c0 ≤ lastCursor c0 segs := by
  intro segs
  induction segs with
  | nil => exact fun c0 fin _ => Nat.le_refl c0
  | cons sc rest ih =>
    intro c0 fin h
    obtain ⟨seg, c⟩ := sc
    obtain ⟨h1, _, _, h4⟩ := h
    have := ih c fin h4
    simp only [lastCursor]
    omega

theorem cursorChain_reconstruct (text : List Char) :
    ∀ segs c0 fin, cursorChain text c0 segs fin →
      spanConcat text c0 segs ++ text.drop (lastCursor c0 segs) = text.drop c0 := by
  intro segs
  induction segs with
  | nil =>
    intro c0 fin _
    simp [spanConcat, lastCursor]
  | cons sc rest ih =>
    intro c0 fin h
    obtain ⟨seg, c⟩ := sc
    obtain ⟨h1, _, _, h4⟩ := h
    simp only [spanConcat, lastCursor]
    rw [List.append_assoc, ih c fin h4, pySlice_drop text c0 c (Nat.le_of_lt h1)]

/-- C2: the consumed spans of the segments returned by
`extract_speakable_segments(text, start)` — each span running from the
previous segment's `new_cursor` (initially `start`) to the segment's own
`new_cursor`, with the segment equal to the `strip` of its span — form a
contiguous prefix of `text[start:]`, and concatenating them with the final
leftover remainder reconstructs `text[start:]` exactly. -/
theorem extract_reconstructs (text : List Char) (start : Nat) :
    stripOfSpans text start (extract_speakable_segments text start) ∧
    spanConcat text start (extract_speakable_segments text start) ++
      text.drop (lastCursor start (extract_speakable_segments text start)) =
      text.drop start := by
  by_cases h : start ≤ text.length
  · have hs := (extractRun_spec text start h).1
    exact ⟨cursorChain_stripOfSpans text _ _ _ hs,
      cursorChain_reconstruct text _ _ _ hs⟩
  · unfold extract_speakable_segments
    rw [extractRun_of_gt text start (by omega)]
    exact ⟨trivial, by simp [spanConcat, lastCursor]⟩

/-- C6 counterexample: on `"a\n \n"` from `start = 0` the loop emits the
single segment `("a", 2)` but its final scan position is `4`, because the
whitespace-only span `" \n"` is consumed without being emitted; so the last
`new_cursor` does not equal the final scan position. -/
theorem final_cursor_counterexample :
    extract_speakable_segments (strL "a\n \n") 0 = [(strL "a", 2)] ∧
    (extractRun (strL "a\n \n") 0).2 = 4 ∧
    lastCursor 0 (extract_speakable_segments (strL "a\n \n") 0) ≠
      (extractRun (strL "a\n \n") 0).2 := by
  refine ⟨by decide, by decide, by decide⟩

/-- C6 amended: the `new_cursor` values of
`extract_speakable_segments(text, start)` are strictly increasing, each
satisfies `start < new_cursor ≤ len(text)`, and the final scan position is
at least the last `new_cursor` and at most `len(text)`, with every character
between the last `new_cursor` and the final scan position being whitespace
(the two coincide unless a whitespace-only line span is skipped after the
last emitted segment); a caller advancing its cursor to each `new_cursor`
keeps it monotonically non-decreasing within `0 ≤ cursor ≤ len(buffer)`. -/
theorem extract_cursor_invariants (text : List Char) (start : Nat)
    (h : start ≤ text.length) :
    cursorsIncreasing start (extract_speakable_segments text start) ∧
    (∀ sc ∈ extract_speakable_segments text start,
      start < sc.2 ∧ sc.2 ≤ text.length) ∧
    start ≤ lastCursor start (extract_speakable_segments text start) ∧
    lastCursor start (extract_speakable_segments text start) ≤
      (extractRun text start).2 ∧
    (extractRun text start).2 ≤ text.length ∧
    (∀ p, lastCursor start (extract_speakable_segments text start) ≤ p →
      p < (extractRun text start).2 → pyIsSpace (charAt text p) = true) := by
  have hs := (extractRun_spec text start h).1
  have htail := cursorChain_tail text _ _ _ hs
  refine ⟨cursorChain_increasing text _ _ _ hs, ?_, ?_, htail.1, htail.2.1, htail.2.2.1⟩
  · intro sc hsc
    have := cursorChain_mem_bounds text _ _ _ hs sc hsc
    exact ⟨this.1, Nat.le_trans this.2 htail.2.1⟩
  · exact cursorChain_lastCursor_ge text _ _ _ hs

/-- Witness for C6 amended at a concrete input. -/
theorem extract_cursor_invariants_witness :
    cursorsIncreasing 0 (extract_speakable_segments (strL "ab. cd\nef") 0) :=
  (extract_cursor_invariants (strL "ab. cd\nef") 0 (by decide)).1

theorem extractAux_fuel_congr (text : List Char) :
    ∀ f1 f2 start idx, text.length - idx < f1 → text.length - idx < f2 →
      extractAux text f1 start idx = extractAux text f2 start idx := by
  intro f1
  induction f1 with
  | zero =>
    intro f2 start idx h1 _
    omega
  | succ n ih =>
    intro f2 start idx h1 h2
    cases f2 with
    | zero => omega
    | succ m =>
      by_cases hlt : idx < text.length
      case neg =>
        rw [extractAux_stop text n start idx hlt, extractAux_stop text m start idx hlt]
      case pos =>
        cases hterm : isTerminator text[idx] with
        | true =>
          have he1 := absorbEnd_ge text (idx + 1)
          rw [extractAux_term text n start idx hlt hterm,
            extractAux_term text m start idx hlt hterm,
            ih m (absorbEnd text (idx + 1)) (absorbEnd text (idx + 1)) (by omega) (by omega)]
        | false =>
          by_cases hnl : text[idx] = '\n'
          · rw [extractAux_newline text n start idx hlt hterm hnl,
              extractAux_newline text m start idx hlt hterm hnl,
              ih m (idx + 1) (idx + 1) (by omega) (by omega)]
          · rw [extractAux_plain text n start idx hlt hterm hnl,
              extractAux_plain text m start idx hlt hterm hnl]
            exact ih m start (idx + 1) (by omega) (by omega)

theorem extractAux_eq_extractFrom (text : List Char) (f start idx : Nat)
    (h : text.length - idx < f) :
    extractAux text f start idx = extractFrom text start idx := by
  unfold extractFrom
  exact extractAux_fuel_congr text f (text.length + 1) start idx h (by omega)

theorem takeWhile_absorb_nil (ext : List Char) (h : headNonAbsorbable ext = true) :
    ext.takeWhile isAbsorbable = [] := by
  cases ext with
  | nil => rfl
  | cons c rest =>
    simp only [headNonAbsorbable, Bool.not_eq_true'] at h
    simp [List.takeWhile_cons, h]

theorem absorbEnd_append (buf ext : List Char) (hext : headNonAbsorbable ext = true)
    (e : Nat) (he : e ≤ buf.length) :
    absorbEnd (buf ++ ext) e = absorbEnd buf e := by
  unfold absorbEnd
  rw [List.drop_append_of_le_length he, List.takeWhile_append]
  split
  · next hfull =>
    rw [takeWhile_absorb_nil ext hext, List.append_nil]
    rw [hfull]
  · rfl

/-- Continuation lemma: scanning `buf ++ ext` coincides with scanning `buf`
and then continuing the scan of `buf ++ ext` from the state the `buf` scan
ended in, provided `ext` does not begin with an absorbable character. -/
theorem extractFrom_append (buf ext : List Char) (hext : headNonAbsorbable ext = true) :
    ∀ fuel start idx, buf.length - idx < fuel → start ≤ idx → idx ≤ buf.length →
      extractFrom (buf ++ ext) start idx =
        ((extractFrom buf start idx).1 ++
            (extractFrom (buf ++ ext) (extractFrom buf start idx).2 buf.length).1,
          (extractFrom (buf ++ ext) (extractFrom buf start idx).2 buf.length).2) := by
  intro fuel
  induction fuel with
  | zero =>
    intro start idx h1 _ _
    omega
  | succ n ih =>
    intro start idx hfuel hsi hil
    by_cases hlt : idx < buf.length
    case neg =>
      have hie : idx = buf.length := by omega
      have hbuf : extractFrom buf start idx = ([], start) := by
        unfold extractFrom
        exact extractAux_stop buf buf.length start idx hlt
      rw [hbuf, hie]
      simp
    case pos =>
      have hltT : idx < (buf ++ ext).length := by
        rw [List.length_append]
        omega
      have hchar : (buf ++ ext)[idx] = buf[idx] := List.getElem_append_left hlt
      have hfromT : extractFrom (buf ++ ext) start idx =
          extractAux (buf ++ ext) ((buf ++ ext).length + 1) start idx := rfl
      have hfromB : extractFrom buf start idx =
          extractAux buf (buf.length + 1) start idx := rfl
      cases hterm : isTerminator buf[idx] with
      | true =>
        have htermT : isTerminator (buf ++ ext)[idx] = true := by
          rw [hchar]
          exact hterm
        have he1 := absorbEnd_ge buf (idx + 1)
        have he2 := absorbEnd_le_length buf (idx + 1) (by omega)
        have heq : absorbEnd (buf ++ ext) (idx + 1) = absorbEnd buf (idx + 1) :=
          absorbEnd_append buf ext hext (idx + 1) (by omega)
        have hsl : pySlice (buf ++ ext) start (absorbEnd buf (idx + 1)) =
            pySlice buf start (absorbEnd buf (idx + 1)) :=
          pySlice_append_left buf ext start _ he2
        rw [hfromT, hfromB,
          extractAux_term (buf ++ ext) (buf ++ ext).length start idx hltT htermT,
          extractAux_term buf buf.length start idx hlt hterm, heq, hsl,
          extractAux_eq_extractFrom (buf ++ ext) (buf ++ ext).length _ _
            (by rw [List.length_append]; omega),
          extractAux_eq_extractFrom buf buf.length _ _ (by omega),
          ih (absorbEnd buf (idx + 1)) (absorbEnd buf (idx + 1)) (by omega)
            (Nat.le_refl _) he2]
        by_cases hseg : pyStrip (pySlice buf start (absorbEnd buf (idx + 1))) = []
        · rw [if_pos hseg, if_pos hseg]
        · rw [if_neg hseg, if_neg hseg]
          simp
      | false =>
        by_cases hnl : buf[idx] = '\n'
        · have hnlT : (buf ++ ext)[idx] = '\n' := by
            rw [hchar]
            exact hnl
          have htermT : isTerminator (buf ++ ext)[idx] = false := by
            rw [hchar]
            exact hterm
          have hsl : pySlice (buf ++ ext) start idx = pySlice buf start idx :=
            pySlice_append_left buf ext start idx (by omega)
          rw [hfromT, hfromB,
            extractAux_newline (buf ++ ext) (buf ++ ext).length start idx hltT htermT hnlT,
            extractAux_newline buf buf.length start idx hlt hterm hnl, hsl,
            extractAux_eq_extractFrom (buf ++ ext) (buf ++ ext).length _ _
              (by rw [List.length_append]; omega),
            extractAux_eq_extractFrom buf buf.length _ _ (by omega),
            ih (idx + 1) (idx + 1) (by omega) (Nat.le_refl _) (by omega)]
          by_cases hseg : pyStrip (pySlice buf start idx) = []
          · rw [if_pos hseg, if_pos hseg]
          · rw [if_neg hseg, if_neg hseg]
            simp
        · have hnlT : ¬ (buf ++ ext)[idx] = '\n' := by
            rw [hchar]
            exact hnl
          have htermT : isTerminator (buf ++ ext)[idx] = false := by
            rw [hchar]
            exact hterm
          rw [hfromT, hfromB,
            extractAux_plain (buf ++ ext) (buf ++ ext).length start idx hltT htermT hnlT,
            extractAux_plain buf buf.length start idx hlt hterm hnl,
            extractAux_eq_extractFrom (buf ++ ext) (buf ++ ext).length _ _
              (by rw [List.length_append]; omega),
            extractAux_eq_extractFrom buf buf.length _ _ (by omega)]
          exact ih start (idx + 1) (by omega) (by omega) (by omega)

/-- Walking over a region without terminators or newlines does not change
the result of the scan. -/
theorem extractFrom_plain_run (T : List Char) :
    ∀ fuel start idx j, j - idx < fuel → idx ≤ j →
      (∀ p, idx ≤ p → p < j → p < T.length →
        isTerminator (charAt T p) = false ∧ charAt T p ≠ '\n') →
      extractFrom T start idx = extractFrom T start j := by
  intro fuel
  induction fuel with
  | zero =>
    intro start idx j h1 _ _
    omega
  | succ n ih =>
    intro start idx j hfuel hij hnb
    by_cases hj : idx = j
    · rw [hj]
    · by_cases hlt : idx < T.length
      · have hc := hnb idx (Nat.le_refl _) (by omega) hlt
        have hcg := charAt_eq_getElem T idx hlt
        have hterm : isTerminator T[idx] = false := by
          rw [← hcg]
          exact hc.1
        have hnl : ¬ T[idx] = '\n' := by
          rw [← hcg]
          exact hc.2
        have hstep : extractFrom T start idx =
            extractAux T (T.length + 1) start idx := rfl
        rw [hstep, extractAux_plain T T.length start idx hlt hterm hnl,
          extractAux_eq_extractFrom T T.length start (idx + 1) (by omega)]
        exact ih start (idx + 1) j (by omega) (by omega)
          (fun p hp1 hp2 hp3 => hnb p (by omega) hp2 hp3)
      · have hbase1 : extractFrom T start idx = ([], start) := by
          unfold extractFrom
          exact extractAux_stop T T.length start idx hlt
        have hbase2 : extractFrom T start j = ([], start) := by
          unfold extractFrom
          exact extractAux_stop T T.length start j (by omega)
        rw [hbase1, hbase2]

/-- Re-scanning a whitespace run that ends with a newline at `fin - 1` lands
the scan exactly in state `(fin, fin)`. -/
theorem extractFrom_ws_run (T : List Char) :
    ∀ fuel start idx fin, fin - idx < fuel → start ≤ idx → idx ≤ fin →
      (idx < fin ∨ start = fin) → fin ≤ T.length →
      (∀ p, start ≤ p → p < fin → pyIsSpace (charAt T p) = true) →
      (start < fin → charAt T (fin - 1) = '\n') →
      extractFrom T start idx = extractFrom T fin fin := by
  intro fuel
  induction fuel with
  | zero =>
    intro start idx fin h1 _ _ _ _ _ _
    omega
  | succ n ih =>
    intro start idx fin hfuel hsi hif hcase hflen hws hnl
    by_cases hieq : idx = fin
    · have hsf : start = fin := by
        rcases hcase with hc | hc
        · omega
        · exact hc
      rw [hsf, hieq]
    · have hif2 : idx < fin := by omega
      have hlt : idx < T.length := by omega
      have hwsidx : pyIsSpace (charAt T idx) = true := hws idx hsi hif2
      have hcg := charAt_eq_getElem T idx hlt
      have hterm : isTerminator T[idx] = false := by
        rw [← hcg]
        exact ws_not_terminator _ hwsidx
      by_cases hnlc : T[idx] = '\n'
      · have hstep : extractFrom T start idx =
            extractAux T (T.length + 1) start idx := rfl
        rw [hstep, extractAux_newline T T.length start idx hlt hterm hnlc]
        have hseg : pyStrip (pySlice T start idx) = [] := by
          rw [pyStrip_eq_nil_iff]
          intro ch hch
          obtain ⟨p, hp1, hp2, _, hp4⟩ := mem_pySlice T start idx ch hch
          rw [← hp4]
          exact hws p hp1 (by omega)
        rw [if_pos hseg,
          extractAux_eq_extractFrom T T.length (idx + 1) (idx + 1) (by omega)]
        refine ih (idx + 1) (idx + 1) fin (by omega) (Nat.le_refl _) (by omega)
          ?_ hflen ?_ ?_
        · by_cases h4 : idx + 1 < fin
          · exact Or.inl h4
          · exact Or.inr (by omega)
        · intro p hp1 hp2
          exact hws p (by omega) hp2
        · intro _
          exact hnl (by omega)
      · have hne : idx + 1 ≠ fin := by
          intro hcon
          have hend : charAt T (fin - 1) = '\n' := hnl (by omega)
          rw [show fin - 1 = idx by omega, hcg] at hend
          exact hnlc hend
        have hstep : extractFrom T start idx =
            extractAux T (T.length + 1) start idx := rfl
        rw [hstep, extractAux_plain T T.length start idx hlt hterm hnlc,
          extractAux_eq_extractFrom T T.length start (idx + 1) (by omega)]
        exact ih start (idx + 1) fin (by omega) (by omega) (by omega)
          (Or.inl (by omega)) hflen hws hnl

/-- After a full scan the cursor left to the caller is settled: re-scanning
from it yields nothing new. -/
theorem extract_settled_nil (text : List Char) (c : Nat) (hc : c ≤ text.length) :
    extract_speakable_segments text
      (lastCursor c (extract_speakable_segments text c)) = [] := by
  rw [show extract_speakable_segments text c = (extractRun text c).1 from rfl]
  have hs := extractRun_spec text c hc
  have htail := cursorChain_tail text _ _ _ hs.1
  have hge := cursorChain_lastCursor_ge text _ _ _ hs.1
  have h1 : extractFrom text (lastCursor c (extractRun text c).1)
      (lastCursor c (extractRun text c).1) =
      extractFrom text (extractRun text c).2 (extractRun text c).2 := by
    refine extractFrom_ws_run text ((extractRun text c).2 -
      lastCursor c (extractRun text c).1 + 1) _ _ _
      (by omega) (Nat.le_refl _) htail.1 ?_ htail.2.1 htail.2.2.1 htail.2.2.2
    by_cases hLF : lastCursor c (extractRun text c).1 <
        (extractRun text c).2
    · exact Or.inl hLF
    · exact Or.inr (by omega)
  have h2 : extractFrom text (extractRun text c).2 (extractRun text c).2 =
      extractFrom text (extractRun text c).2 text.length := by
    refine extractFrom_plain_run text (text.length - (extractRun text c).2 + 1)
      _ _ _ (by omega) htail.2.1 ?_
    intro p hp1 hp2 hp3
    exact hs.2 p hp1 (by omega) hp3
  have h3 : extractFrom text (extractRun text c).2 text.length =
      ([], (extractRun text c).2) := by
    unfold extractFrom
    exact extractAux_stop text text.length _ text.length (by omega)
  have hgoal : extract_speakable_segments text (lastCursor c (extractRun text c).1) =
      (extractFrom text (lastCursor c (extractRun text c).1)
        (lastCursor c (extractRun text c).1)).1 := rfl
  rw [hgoal, h1, h2, h3]

/-- Extending already-scanned text by a chunk that does not begin with an
absorbable character splits the extraction into the old segments followed by
a fresh extraction from the settled cursor. -/
theorem extract_append_step (buf ext : List Char) (hext : headNonAbsorbable ext = true)
    (c : Nat) (hc : c ≤ buf.length) :
    extract_speakable_segments (buf ++ ext) c =
      extract_speakable_segments buf c ++
        extract_speakable_segments (buf ++ ext)
          (lastCursor c (extract_speakable_segments buf c)) := by
  rw [show extract_speakable_segments buf c = (extractRun buf c).1 from rfl]
  have hCL := extractFrom_append buf ext hext (buf.length - c + 1) c c (by omega)
    (Nat.le_refl _) hc
  rw [show extractFrom buf c c = extractRun buf c from rfl] at hCL
  have hs := extractRun_spec buf c hc
  have htail := cursorChain_tail buf _ _ _ hs.1
  have hge := cursorChain_lastCursor_ge buf _ _ _ hs.1
  have hF := htail.2.1
  have hlenT : (extractRun buf c).2 ≤ (buf ++ ext).length := by
    rw [List.length_append]
    omega
  have hws : ∀ p, lastCursor c (extractRun buf c).1 ≤ p → p < (extractRun buf c).2 →
      pyIsSpace (charAt (buf ++ ext) p) = true := by
    intro p hp1 hp2
    rw [charAt_append_left buf ext p (by omega)]
    exact htail.2.2.1 p hp1 hp2
  have hnlF : lastCursor c (extractRun buf c).1 < (extractRun buf c).2 →
      charAt (buf ++ ext) ((extractRun buf c).2 - 1) = '\n' := by
    intro h
    rw [charAt_append_left buf ext _ (by omega)]
    exact htail.2.2.2 h
  have h1 : extractFrom (buf ++ ext) (lastCursor c (extractRun buf c).1)
      (lastCursor c (extractRun buf c).1) =
      extractFrom (buf ++ ext) (extractRun buf c).2 (extractRun buf c).2 := by
    refine extractFrom_ws_run (buf ++ ext)
      ((extractRun buf c).2 - lastCursor c (extractRun buf c).1 + 1)
      _ _ _ (by omega) (Nat.le_refl _) htail.1 ?_ hlenT hws hnlF
    by_cases hLF : lastCursor c (extractRun buf c).1 < (extractRun buf c).2
    · exact Or.inl hLF
    · exact Or.inr (by omega)
  have h2 : extractFrom (buf ++ ext) (extractRun buf c).2 (extractRun buf c).2 =
      extractFrom (buf ++ ext) (extractRun buf c).2 buf.length := by
    refine extractFrom_plain_run (buf ++ ext) (buf.length - (extractRun buf c).2 + 1)
      _ _ _ (by omega) htail.2.1 ?_
    intro p hp1 hp2 _
    rw [charAt_append_left buf ext p hp2]
    exact hs.2 p hp1 (by omega) hp2
  rw [show extract_speakable_segments (buf ++ ext) c =
    (extractFrom (buf ++ ext) c c).1 from rfl]
  rw [show extract_speakable_segments (buf ++ ext) (lastCursor c (extractRun buf c).1) =
    (extractFrom (buf ++ ext) (lastCursor c (extractRun buf c).1)
      (lastCursor c (extractRun buf c).1)).1 from rfl]
  rw [hCL, h1, h2]

theorem lastCursor_append (c0 : Nat) (l1 l2 : List (List Char × Nat)) :
    lastCursor c0 (l1 ++ l2) = lastCursor (lastCursor c0 l1) l2 := by
  induction l1 generalizing c0 with
  | nil => rfl
  | cons sc rest ih =>
    obtain ⟨seg, c⟩ := sc
    simp only [List.cons_append, lastCursor]
    exact ih c

theorem headNonAbsorbable_flatten (chunks : List (List Char))
    (h : ∀ ch ∈ chunks, headNonAbsorbable ch = true) :
    headNonAbsorbable chunks.flatten = true := by
  induction chunks with
  | nil => rfl
  | cons cfirst rest ih =>
    cases cfirst with
    | nil =>
      rw [List.flatten_cons, List.nil_append]
      exact ih (fun ch hch => h ch (List.mem_cons_of_mem _ hch))
    | cons a asrest =>
      have ha := h (a :: asrest) (List.mem_cons_self _ _)
      rw [List.flatten_cons, List.cons_append]
      exact ha

theorem feedIncremental_spec (chunks : List (List Char)) :
    ∀ buf c, c ≤ buf.length →
      (∀ ch ∈ chunks.drop 1, headNonAbsorbable ch = true) →
      extract_speakable_segments buf c = [] →
      (feedIncremental buf c chunks).1 =
        extract_speakable_segments (buf ++ chunks.flatten) c ∧
      (feedIncremental buf c chunks).2 =
        lastCursor c (extract_speakable_segments (buf ++ chunks.flatten) c) := by
  induction chunks with
  | nil =>
    intro buf c _ _ hsettled
    simp only [feedIncremental, List.flatten_nil, List.append_nil]
    rw [hsettled]
    exact ⟨rfl, rfl⟩
  | cons chunk rest ih =>
    intro buf c hc hOK hsettled
    have hOKrest : ∀ ch ∈ rest, headNonAbsorbable ch = true := fun ch hch => hOK ch hch
    have hcBC : c ≤ (buf ++ chunk).length := by
      rw [List.length_append]
      omega
    have hK := extract_append_step (buf ++ chunk) rest.flatten
      (headNonAbsorbable_flatten rest hOKrest) c hcBC
    have hT : buf ++ (chunk :: rest).flatten = (buf ++ chunk) ++ rest.flatten := by
      rw [List.flatten_cons, List.append_assoc]
    have hsBC := extractRun_spec (buf ++ chunk) c hcBC
    have htailBC := cursorChain_tail _ _ _ _ hsBC.1
    have hc1 : lastCursor c (extract_speakable_segments (buf ++ chunk) c) ≤
        (buf ++ chunk).length :=
      Nat.le_trans htailBC.1 htailBC.2.1
    have hsettled1 : extract_speakable_segments (buf ++ chunk)
        (lastCursor c (extract_speakable_segments (buf ++ chunk) c)) = [] :=
      extract_settled_nil (buf ++ chunk) c hcBC
    have hIH := ih (buf ++ chunk)
      (lastCursor c (extract_speakable_segments (buf ++ chunk) c)) hc1
      (fun ch hch => hOKrest ch (List.mem_of_mem_drop hch)) hsettled1
    simp only [feedIncremental]
    constructor
    · rw [hIH.1, hT, hK]
    · rw [hIH.2, hT, hK, lastCursor_append]

/-- C3 counterexample: streaming the finished reply `"Hi.) Yes."` as the two
chunks `"Hi."` and `") Yes."` yields the segments
`[("Hi.", 3), (") Yes.", 9)]`, while one call on the full text yields
`[("Hi.)", 5), ("Yes.", 9)]` — the closing parenthesis is absorbed into the
first segment only when the full text is available, so incremental and
one-shot segmentation differ (not merely in the final remainder: both runs
consume the whole text). -/
theorem incremental_counterexample :
    [strL "Hi.", strL ") Yes."].flatten = strL "Hi.) Yes." ∧
    (feedIncremental [] 0 [strL "Hi.", strL ") Yes."]).1 =
      [(strL "Hi.", 3), (strL ") Yes.", 9)] ∧
    extract_speakable_segments (strL "Hi.) Yes.") 0 =
      [(strL "Hi.)", 5), (strL "Yes.", 9)] ∧
    (feedIncremental [] 0 [strL "Hi.", strL ") Yes."]).1 ≠
      extract_speakable_segments (strL "Hi.) Yes.") 0 := by
  refine ⟨by decide, by decide, by decide, by decide⟩

/-- C3 amended: feeding the full text in one call agrees with feeding it
incrementally chunk-by-chunk (scanning the cumulative text from the cursor
returned previously) provided every chunk after the first is empty or starts
with a character that is neither whitespace nor one of the closing
characters absorbed after a terminator; a chunk boundary that splits such an
absorption run (see the counterexample) makes the two runs differ. -/
theorem incremental_matches_full (chunks : List (List Char))
    (h : ∀ ch ∈ chunks.drop 1, headNonAbsorbable ch = true) :
    (feedIncremental [] 0 chunks).1 =
      extract_speakable_segments chunks.flatten 0 := by
  have hspec := (feedIncremental_spec chunks [] 0 (Nat.le_refl 0) h rfl).1
  rw [hspec, List.nil_append]

/-- Witness for C3 amended: a concrete two-chunk stream whose later chunk
starts with an ordinary letter. -/
theorem incremental_matches_full_witness :
    (feedIncremental [] 0 [strL "Hello wo", strL "rld. How are you? I am f"]).1 =
      extract_speakable_segments
        ([strL "Hello wo", strL "rld. How are you? I am f"].flatten) 0 :=
  incremental_matches_full [strL "Hello wo", strL "rld. How are you? I am f"] (by decide)

theorem overlapSearch_le (existing new_text : List Char) (m : Nat) :
    overlapSearch existing new_text m ≤ m := by
  induction m with
  | zero => simp [overlapSearch]
  | succ k ih =>
    unfold overlapSearch
    split
    · exact Nat.le_refl _
    · exact Nat.le_succ_of_le ih

theorem overlapSearch_matches (existing new_text : List Char) (m : Nat) :
    overlapMatches existing new_text (overlapSearch existing new_text m) := by
  induction m with
  | zero => simp [overlapSearch, overlapMatches]
  | succ k ih =>
    unfold overlapSearch
    split
    · next h => exact h
    · exact ih

theorem overlapSearch_maximal (existing new_text : List Char) (m : Nat) :
    ∀ j, overlapSearch existing new_text m < j → j ≤ m →
      ¬ overlapMatches existing new_text j := by
  induction m with
  | zero =>
    intro j h1 h2
    omega
  | succ k ih =>
    intro j h1 h2
    by_cases hc : existing.drop (existing.length - (k + 1)) = new_text.take (k + 1)
    · unfold overlapSearch at h1
      rw [if_pos hc] at h1
      omega
    · unfold overlapSearch at h1
      rw [if_neg hc] at h1
      rcases Nat.lt_or_ge j (k + 1) with hj | hj
      · exact ih j h1 (by omega)
      · have hjk : j = k + 1 := by omega
        subst hjk
        exact hc

/-- C1: `leading_overlap` returns the largest `k` with
`0 ≤ k ≤ min(len(existing), len(incoming))` such that the last `k` characters
of `existing` equal the first `k` characters of `incoming` (so `0` when no
positive `k` matches); in particular
`leading_overlap(existing, existing ++ extra) = len(existing)` (with no side
condition on `extra` needed) and `leading_overlap(existing, "") = 0`. -/
theorem leading_overlap_correct (existing new_text extra : List Char) :
    leading_overlap existing new_text ≤ min existing.length new_text.length ∧
    overlapMatches existing new_text (leading_overlap existing new_text) ∧
    (∀ j, leading_overlap existing new_text < j →
      j ≤ min existing.length new_text.length →
      ¬ overlapMatches existing new_text j) ∧
    leading_overlap existing (existing ++ extra) = existing.length ∧
    leading_overlap existing [] = 0 := by
  refine ⟨overlapSearch_le _ _ _, overlapSearch_matches _ _ _,
    overlapSearch_maximal _ _ _, ?_, ?_⟩
  · unfold leading_overlap
    have hmin : min existing.length (existing ++ extra).length = existing.length := by
      rw [List.length_append]
      omega
    rw [hmin]
    cases hE : existing.length with
    | zero => simp [overlapSearch]
    | succ k =>
      have hcond : existing.drop (existing.length - (k + 1)) =
          (existing ++ extra).take (k + 1) := by
        rw [← hE, Nat.sub_self, List.drop_zero]
        exact (List.take_left existing extra).symm
      simp only [overlapSearch]
      rw [if_pos hcond]
  · simp [leading_overlap, overlapSearch]

/-- Witness for C1: a concrete overlap length, match, and maximality
instance. -/
theorem leading_overlap_correct_witness :
    ¬ overlapMatches (strL "ab") (strL "bc") 2 :=
  (leading_overlap_correct (strL "ab") (strL "bc") []).2.2.1 2 (by decide) (by decide)

/-- C4 counterexample: on `"Hello world. How are you?\nI am fine"` the
extractor does not return the cursors `12` and `25` claimed by the spec,
because the terminator branch also absorbs the whitespace that follows each
terminator. -/
theorem extract_example_counterexample :
    extract_speakable_segments (strL "Hello world. How are you?\nI am fine") 0 ≠
      [(strL "Hello world.", 12), (strL "How are you?", 25)] := by
  decide

/-- C4 amended: the example yields the segments `"Hello world."` and
`"How are you?"`, but at cursors `13` and `26` (each boundary absorbs the
following whitespace, including the newline); `"I am fine"` remains
unconsumed. -/
theorem extract_example_actual :
    extract_speakable_segments (strL "Hello world. How are you?\nI am fine") 0 =
      [(strL "Hello world.", 13), (strL "How are you?", 26)] ∧
    (extractRun (strL "Hello world. How are you?\nI am fine") 0).2 = 26 ∧
    (strL "Hello world. How are you?\nI am fine").drop 26 = strL "I am fine" := by
  refine ⟨by decide, by decide, by decide⟩

/-- C5 counterexample: after de-duplicating the chunks `"Hello wor"` and
`"world, friend."` the buffer is the 20-character string
`"Hello world, friend."`, so the extractor cannot emit a cursor of `21`. -/
theorem dedup_scenario_counterexample :
    extract_speakable_segments
      (appendDedup (appendDedup [] (strL "Hello wor")) (strL "world, friend.")) 0 ≠
      [(strL "Hello world, friend.", 21)] := by
  decide

/-- C5 amended: streaming `"Hello wor"` then `"world, friend."` through the
de-duplicating append gives the buffer `"Hello world, friend."`, and the
extractor emits exactly the segment `"Hello world, friend."` at cursor `20`
(the length of the buffer). -/
theorem dedup_scenario_actual :
    appendDedup (appendDedup [] (strL "Hello wor")) (strL "world, friend.") =
      strL "Hello world, friend." ∧
    extract_speakable_segments (strL "Hello world, friend.") 0 =
      [(strL "Hello world, friend.", 20)] := by
  refine ⟨by decide, by decide⟩

theorem pipelineIds_record_error {V E B : Type} (s : PlayerState V E B) (e : E) :
    pipelineIds (record_error s e) = pipelineIds s ∧
    (record_error s e).nextId = s.nextId := by
  unfold record_error
  cases s.firstError <;> exact ⟨rfl, rfl⟩

/-- In every reachable state the ghost sequence numbers across the whole
pipeline (played, playing, queued audio, synthesising, queued text) are
strictly increasing, and all are below the next number to be assigned. -/
theorem player_invariant {V E B : Type} (s : PlayerState V E B)
    (h : PlayerReachable s) :
    List.Pairwise (· < ·) (pipelineIds s) ∧ ∀ i ∈ pipelineIds s, i < s.nextId := by
  induction h with
  | init =>
    constructor
    · simp [pipelineIds, initialPlayer]
    · intro i hi
      simp [pipelineIds, initialPlayer] at hi
  | step s s' _ hstep ih =>
    cases hstep with
    | speak s2 req hok =>
      unfold speak_text at hok
      cases hfe : s.firstError with
      | some e =>
        rw [hfe] at hok
        exact absurd hok (by simp)
      | none =>
        rw [hfe] at hok
        by_cases hstrip : pyStrip req.text = []
        · rw [if_pos hstrip] at hok
          injection hok with hok
          rw [← hok]
          exact ih
        · rw [if_neg hstrip] at hok
          injection hok with hok
          subst hok
          have heq : pipelineIds { textQueue := s.textQueue ++ [(s.nextId, req)], genBusy := s.genBusy, playQueue := s.playQueue, playBusy := s.playBusy, played := s.played, firstError := (none : Option E), stopFlag := s.stopFlag, nextId := s.nextId + 1 } = pipelineIds s ++ [s.nextId] := by
            simp [pipelineIds]
          constructor
          · rw [heq, List.pairwise_append]
            refine ⟨ih.1, List.pairwise_singleton _ _, ?_⟩
            intro a ha b hb
            rw [List.mem_singleton] at hb
            rw [hb]
            exact ih.2 a ha
          · intro i hi
            rw [heq] at hi
            rcases List.mem_append.mp hi with h1 | h1
            · have := ih.2 i h1
              show i < s.nextId + 1
              omega
            · rw [List.mem_singleton] at h1
              show i < s.nextId + 1
              omega
    | genPull item rest hstop hbusy hq =>
      have heq : pipelineIds { s with textQueue := rest, genBusy := some item } =
          pipelineIds s := by
        simp [pipelineIds, hq, hbusy]
      constructor
      · rw [heq]
        exact ih.1
      · intro i hi
        rw [heq] at hi
        exact ih.2 i hi
    | genSuccess i req b hbusy hroom =>
      have heq : pipelineIds { s with genBusy := none, playQueue := s.playQueue ++ [(i, b)] } = pipelineIds s := by
        simp [pipelineIds, hbusy]
      constructor
      · rw [heq]
        exact ih.1
      · intro j hj
        rw [heq] at hj
        exact ih.2 j hj
    | genEmpty item hbusy =>
      have hsub : List.Sublist (pipelineIds { s with genBusy := none }) (pipelineIds s) := by
        unfold pipelineIds
        rw [hbusy]
        exact List.Sublist.append
          (List.Sublist.append (List.Sublist.refl _) (List.nil_sublist _))
          (List.Sublist.refl _)
      constructor
      · exact ih.1.sublist hsub
      · intro i hi
        exact ih.2 i (hsub.subset hi)
    | genFail item e hbusy =>
      have hre := pipelineIds_record_error { s with genBusy := none } e
      have hsub : List.Sublist (pipelineIds { s with genBusy := none }) (pipelineIds s) := by
        unfold pipelineIds
        rw [hbusy]
        exact List.Sublist.append
          (List.Sublist.append (List.Sublist.refl _) (List.nil_sublist _))
          (List.Sublist.refl _)
      constructor
      · rw [hre.1]
        exact ih.1.sublist hsub
      · intro i hi
        rw [hre.1] at hi
        rw [hre.2]
        exact ih.2 i (hsub.subset hi)
    | playPull item rest hstop hbusy hq =>
      have heq : pipelineIds { s with playQueue := rest, playBusy := some item } =
          pipelineIds s := by
        simp [pipelineIds, hq, hbusy]
      constructor
      · rw [heq]
        exact ih.1
      · intro i hi
        rw [heq] at hi
        exact ih.2 i hi
    | playDone item hbusy =>
      have heq : pipelineIds { s with playBusy := none, played := s.played ++ [item] } = pipelineIds s := by
        simp [pipelineIds, hbusy]
      constructor
      · rw [heq]
        exact ih.1
      · intro i hi
        rw [heq] at hi
        exact ih.2 i hi
    | playFail item e hbusy =>
      have hre := pipelineIds_record_error { s with playBusy := none } e
      have hsub : List.Sublist (pipelineIds { s with playBusy := none }) (pipelineIds s) := by
        unfold pipelineIds
        rw [hbusy]
        exact List.Sublist.append (List.Sublist.append (List.Sublist.append
          (List.Sublist.append (List.Sublist.refl _) (List.nil_sublist _))
          (List.Sublist.refl _)) (List.Sublist.refl _)) (List.Sublist.refl _)
      constructor
      · rw [hre.1]
        exact ih.1.sublist hsub
      · intro i hi
        rw [hre.1] at hi
        rw [hre.2]
        exact ih.2 i (hsub.subset hi)
    | stop =>
      have hsub : List.Sublist (pipelineIds { s with textQueue := [], playQueue := [], stopFlag := true }) (pipelineIds s) := by
        unfold pipelineIds
        exact List.Sublist.append (List.Sublist.append (List.Sublist.append
          (List.Sublist.append (List.Sublist.refl _) (List.Sublist.refl _))
          (List.nil_sublist _)) (List.Sublist.refl _)) (List.nil_sublist _)
      constructor
      · exact ih.1.sublist hsub
      · intro i hi
        exact ih.2 i (hsub.subset hi)

/-- C9: in every reachable pipeline state the ghost enqueue numbers of the
played buffers are strictly increasing — buffers are played exactly in the
order their speak requests were enqueued, whatever the synthesis and
playback outcomes or durations (the step relation admits every interleaving,
covering e.g. latencies `(3, 1, 2)`); the ids stay ordered across the whole
pipeline, and playback cannot overlap structurally: the playback worker
holds at most one buffer and `PlayerStep.playPull` requires the previous one
to have finished (`playBusy = none`). -/
theorem playback_in_enqueue_order {V E B : Type} (s : PlayerState V E B)
    (h : PlayerReachable s) :
    List.Pairwise (· < ·) (s.played.map Prod.fst) ∧
    List.Pairwise (· < ·) (pipelineIds s) := by
  have hinv := player_invariant s h
  refine ⟨?_, hinv.1⟩
  have hsub : List.Sublist (s.played.map Prod.fst) (pipelineIds s) := by
    unfold pipelineIds
    exact (((List.sublist_append_left _ _).trans
      (List.sublist_append_left _ _)).trans
      (List.sublist_append_left _ _)).trans
      (List.sublist_append_left _ _)
  exact hinv.1.sublist hsub

/-- Witness for C9 at the initial state. -/
theorem playback_in_enqueue_order_witness :
    List.Pairwise (· < ·) ((initialPlayer Unit Unit Unit).played.map Prod.fst) ∧
    List.Pairwise (· < ·) (pipelineIds (initialPlayer Unit Unit Unit)) :=
  playback_in_enqueue_order (initialPlayer Unit Unit Unit) PlayerReachable.init

/-- C7: the captured pipeline error is set at most once — `_record_error`
keeps the first error, and no pipeline step ever changes an already-captured
error — and once set, `speak_text` raises exactly that error without
enqueuing anything, while requests already enqueued are still pulled and
processed: the worker steps do not consult `firstError`, so pulling the next
request and pushing its synthesized buffer remain enabled in a degraded
state. -/
theorem pipeline_error_capture {V E B : Type} :
    (∀ (s : PlayerState V E B) (e e' : E), s.firstError = some e →
      record_error s e' = s) ∧
    (∀ (s : PlayerState V E B) (e : E), s.firstError = none →
      (record_error s e).firstError = some e) ∧
    (∀ (s s' : PlayerState V E B) (e : E), PlayerStep s s' →
      s.firstError = some e → s'.firstError = some e) ∧
    (∀ (s : PlayerState V E B) (req : SpeakRequest V) (e : E),
      s.firstError = some e → speak_text s req = Except.error e) ∧
    (∀ (s : PlayerState V E B) (item rest) (e : E), s.firstError = some e →
      s.stopFlag = false → s.genBusy = none → s.textQueue = item :: rest →
      PlayerStep s { s with textQueue := rest, genBusy := some item }) ∧
    (∀ (s : PlayerState V E B) (i : Nat) (req : SpeakRequest V) (b : B) (e : E),
      s.firstError = some e → s.genBusy = some (i, req) →
      s.playQueue.length < playQueueCapacity →
      PlayerStep s { s with genBusy := none, playQueue := s.playQueue ++ [(i, b)] }) := by
  refine ⟨?_, ?_, ?_, ?_, ?_, ?_⟩
  · intro s e e' h
    unfold record_error
    rw [h]
  · intro s e h
    unfold record_error
    rw [h]
  · intro s s' e hstep herr
    cases hstep with
    | speak s2 req hok =>
      unfold speak_text at hok
      rw [herr] at hok
      exact absurd hok (by simp)
    | genPull item rest hstop hbusy hq => exact herr
    | genSuccess i req b hbusy hroom => exact herr
    | genEmpty item hbusy => exact herr
    | genFail item e2 hbusy =>
      show (record_error { s with genBusy := none } e2).firstError = some e
      unfold record_error
      simp only [herr]
    | playPull item rest hstop hbusy hq => exact herr
    | playDone item hbusy => exact herr
    | playFail item e2 hbusy =>
      show (record_error { s with playBusy := none } e2).firstError = some e
      unfold record_error
      simp only [herr]
    | stop => exact herr
  · intro s req e h
    unfold speak_text
    rw [h]
  · intro s item rest e herr hstop hbusy hq
    exact PlayerStep.genPull s item rest hstop hbusy hq
  · intro s i req b e herr hbusy hroom
    exact PlayerStep.genSuccess s i req b hbusy hroom

/-- Witness for C7: a degraded player raises its captured error on `speak`. -/
theorem pipeline_error_capture_witness :
    speak_text { initialPlayer Unit Unit Unit with firstError := some () }
      (SpeakRequest.mk (strL "Hi") ()) = Except.error () :=
  (@pipeline_error_capture Unit Unit Unit).2.2.2.1 _ _ () rfl

/-- C10: in `speak_text` the captured-error check precedes the empty-text
check: with a captured error even a whitespace-only request raises that
error; with no captured error, a request whose text is empty after
`strip()` returns with the state unchanged (nothing enters the text queue),
and any other request is appended to the text queue. -/
theorem speak_text_check_order {V E B : Type} :
    (∀ (s : PlayerState V E B) (req : SpeakRequest V) (e : E),
      s.firstError = some e → speak_text s req = Except.error e) ∧
    (∀ (s : PlayerState V E B) (req : SpeakRequest V), s.firstError = none →
      pyStrip req.text = [] → speak_text s req = Except.ok s) ∧
    (∀ (s : PlayerState V E B) (req : SpeakRequest V), s.firstError = none →
      pyStrip req.text ≠ [] → speak_text s req = Except.ok
        { s with textQueue := s.textQueue ++ [(s.nextId, req)], nextId := s.nextId + 1 }) := by
  refine ⟨?_, ?_, ?_⟩
  · intro s req e h
    unfold speak_text
    rw [h]
  · intro s req hfe hstrip
    unfold speak_text
    rw [hfe, if_pos hstrip]
  · intro s req hfe hstrip
    unfold speak_text
    rw [hfe, if_neg hstrip]

/-- Witness for C10: a degraded player raises even on whitespace-only
text. -/
theorem speak_text_check_order_witness :
    speak_text { initialPlayer Unit Unit Unit with firstError := some () }
      (SpeakRequest.mk (strL " ") ()) = Except.error () :=
  (@speak_text_check_order Unit Unit Unit).1 _ _ () rfl

theorem processLines_clientError_iff {J : Type} (parse : List Char → Option J)
    (textOf : J → Except Unit (List Char)) :
    ∀ lines, (∃ payload, processLines parse textOf lines =
        BodyResult.clientError payload) ↔
      scanHitsMalformed parse textOf lines = true := by
  intro lines
  induction lines with
  | nil =>
    simp [processLines, scanHitsMalformed]
  | cons bl rest ih =>
    obtain ⟨stopSet, line⟩ := bl
    cases stopSet with
    | true => simp [processLines, scanHitsMalformed]
    | false =>
      by_cases h2 : line = [] ∨ line.take 6 ≠ dataMarker
      · simp only [processLines, scanHitsMalformed, if_neg Bool.false_ne_true,
          if_pos h2]
        exact ih
      · by_cases h3 : pyStrip (line.drop 6) = doneSentinel
        · simp [processLines, scanHitsMalformed, h2, h3]
        · cases hp : parse (pyStrip (line.drop 6)) with
          | none =>
            simp [processLines, scanHitsMalformed, h2, h3, hp]
          | some j =>
            cases ht : textOf j with
            | error u =>
              simp [processLines, scanHitsMalformed, h2, h3, hp, ht]
            | ok t =>
              by_cases h4 : t = []
              · simp only [processLines, scanHitsMalformed, if_neg Bool.false_ne_true,
                  if_neg h2, if_neg h3, hp, ht, if_pos h4]
                exact ih
              · simp only [processLines, scanHitsMalformed, if_neg Bool.false_ne_true,
                  if_neg h2, if_neg h3, hp, ht, if_neg h4]
                rw [← ih]
                cases hrest : processLines parse textOf rest with
                | ok ts => simp [hrest]
                | clientError q => simp [hrest]
                | uncaught => simp [hrest]

theorem processLines_clientError_malformed {J : Type} (parse : List Char → Option J)
    (textOf : J → Except Unit (List Char)) :
    ∀ lines payload, processLines parse textOf lines = BodyResult.clientError payload →
      parse payload = none := by
  intro lines
  induction lines with
  | nil =>
    intro payload h
    exact absurd h (by simp [processLines])
  | cons bl rest ih =>
    obtain ⟨stopSet, line⟩ := bl
    intro payload h
    cases stopSet with
    | true =>
      simp [processLines] at h
    | false =>
      by_cases h2 : line = [] ∨ line.take 6 ≠ dataMarker
      · simp only [processLines, if_neg Bool.false_ne_true, if_pos h2] at h
        exact ih payload h
      · by_cases h3 : pyStrip (line.drop 6) = doneSentinel
        · simp [processLines, h2, h3] at h
        · cases hp : parse (pyStrip (line.drop 6)) with
          | none =>
            simp only [processLines, if_neg Bool.false_ne_true, if_neg h2,
              if_neg h3, hp, BodyResult.clientError.injEq] at h
            rw [← h]
            exact hp
          | some j =>
            cases ht : textOf j with
            | error u =>
              simp [processLines, h2, h3, hp, ht] at h
            | ok t =>
              by_cases h4 : t = []
              · simp only [processLines, if_neg Bool.false_ne_true, if_neg h2,
                  if_neg h3, hp, ht, if_pos h4] at h
                exact ih payload h
              · simp only [processLines, if_neg Bool.false_ne_true, if_neg h2,
                  if_neg h3, hp, ht, if_neg h4] at h
                cases hrest : processLines parse textOf rest with
                | ok ts =>
                  rw [hrest] at h
                  simp at h
                | clientError q =>
                  rw [hrest] at h
                  simp at h
                  subst h
                  exact ih _ hrest
                | uncaught =>
                  rw [hrest] at h
                  simp at h

/-- C8 counterexample: on the body made of a well-formed data line whose
`choices` list is empty followed by a malformed data line, the original
claim fails: a data line of the stream body contains malformed JSON, yet
the run aborts with the uncaught `IndexError` the extraction raises on the
first line — only `json.loads` sits inside the `try` — and `ChatClientError`
is never raised. -/
theorem stream_error_counterexample :
    hasMalformedDataLine parseEx counterexampleBody = true ∧
    stream_completions (some counterexampleBody) parseEx textOfEx =
      StreamResult.uncaughtError ∧
    (stream_completions (some counterexampleBody) parseEx textOfEx).isClientError =
      false := by
  refine ⟨by decide, by decide, by decide⟩

/-- C8 amended: `stream_completions` raises a `ChatClientError` only for a
data line whose payload is malformed JSON, and raises one exactly when the
loop reaches such a line without first meeting a well-formed data line whose
payload shape makes the extraction raise; that shape error (an empty
`choices` list, a non-object chunk) aborts the response as an uncaught
exception — a third error kind — because only `json.loads` is inside the
`try`.  Network-layer failures — connection failure, timeout, or
non-success HTTP status, all raised before the line loop — propagate as the
distinct `requests` error kind, never as `ChatClientError`. -/
theorem stream_error_classification {J : Type} (parse : List Char → Option J)
    (textOf : J → Except Unit (List Char)) :
    (∀ lines, (∃ payload, stream_completions (some lines) parse textOf =
        StreamResult.clientError payload) ↔
      scanHitsMalformed parse textOf lines = true) ∧
    (∀ lines payload, stream_completions (some lines) parse textOf =
        StreamResult.clientError payload → parse payload = none) ∧
    stream_completions none parse textOf = StreamResult.requestError ∧
    (∀ net, stream_completions net parse textOf = StreamResult.requestError →
      net = none) := by
  refine ⟨?_, ?_, rfl, ?_⟩
  · intro lines
    rw [← processLines_clientError_iff parse textOf lines]
    cases hrest : processLines parse textOf lines with
    | ok ts => simp [stream_completions, hrest]
    | clientError q => simp [stream_completions, hrest]
    | uncaught => simp [stream_completions, hrest]
  · intro lines payload h
    cases hrest : processLines parse textOf lines with
    | ok ts => simp [stream_completions, hrest] at h
    | clientError q =>
      simp [stream_completions, hrest] at h
      rw [← h]
      exact processLines_clientError_malformed parse textOf lines q hrest
    | uncaught => simp [stream_completions, hrest] at h
  · intro net h
    cases net with
    | none => rfl
    | some lines =>
      cases hrest : processLines parse textOf lines with
      | ok ts => simp [stream_completions, hrest] at h
      | clientError q => simp [stream_completions, hrest] at h
      | uncaught => simp [stream_completions, hrest] at h

/-- Witness for C8 amended: a concrete stream whose single data line fails
to parse, with an extraction that never raises. -/
theorem stream_error_classification_witness :
    ∃ payload, stream_completions (some [(false, strL "data: x")])
      (fun _ => (none : Option Unit)) (fun _ => Except.ok []) =
      StreamResult.clientError payload :=
  ((stream_error_classification (fun _ => (none : Option Unit))
    (fun _ => Except.ok [])).1 [(false, strL "data: x")]).mpr (by decide)

end TtsChat
